import Mathlib

/-!
Shallow embedding of the `dmatcher` domain-suffix matcher (`src/lib.rs`).

The trie stores domain rules keyed by labels, most-significant label first.
`Dmatcher.insert` walks/creates nodes along the reversed label list and sets
the payload at the terminal node; `Dmatcher.matches` walks the trie and
either breaks early at a childless node (suffix shortcut), misses (no match),
or consumes all labels and returns the payload at the node reached.

Domain-name parsing is performed by an external library (`trust_dns_proto`,
not part of this repository); it is modelled from the spec where noted.
-/

set_option autoImplicit false

/-- A domain label, represented as the list of its characters. -/
abbrev Label := List Char

/-- UTF-8 byte length of a label. -/
def labelBytes (l : Label) : Nat := (l.map Char.utf8Size).sum

/-- Modelled from the spec: validity of a single label as enforced by the
external domain-name parsing library (an external collaborator, not part of
this repository): a label must not exceed the 63-byte limit. -/
def validLabel (l : Label) : Bool := labelBytes l ≤ 63

/-- Split a character list at every occurrence of the separator character.
`splitSep sep []` is `[[]]`: the empty input has a single empty piece. -/
def splitSep (sep : Char) : List Char → List (List Char)
  | [] => [[]]
  | c :: cs =>
    match splitSep sep cs with
    | [] => [[c]]
    | l :: ls => if c = sep then [] :: l :: ls else (c :: l) :: ls

/-- Join pieces with a separator character (inverse of `splitSep`). -/
def joinSep (sep : Char) : List (List Char) → List Char
  | [] => []
  | [l] => l
  | l :: l2 :: ls => l ++ sep :: joinSep sep (l2 :: ls)

/-- The single error kind of the matcher (spec section 7). -/
inductive DomainError : Type where
  | malformedDomain : DomainError
deriving DecidableEq

/-- Modelled from the spec: the external domain-to-label decomposition
(`IntoName::into_name` of `trust_dns_proto`, not part of this repository).
It splits the domain on dots, discards any empty label produced by
leading/trailing/consecutive dots, and fails with `MalformedDomain` when a
label is invalid (exceeds the 63-byte limit).  Empty-only input after
stripping separators is not an error (spec section 7). -/
def into_name (domain : String) : Except DomainError (List Label) :=
  let ls := (splitSep '.' domain.data).filter (fun l => !l.isEmpty)
  if ls.all validLabel then .ok ls else .error .malformedDomain

/-- Modelled from the spec: the external per-label re-parse
(`Label::from_raw_bytes` of `trust_dns_proto`, not part of this repository),
which only enforces the 63-byte length limit on the raw label bytes. -/
def from_raw_bytes (l : Label) : Except DomainError Label :=
  if labelBytes l ≤ 63 then .ok l else .error .malformedDomain

/-- A trie node: an optional payload `dst` plus a children map `next_lvs`
from labels to child nodes (the `HashMap` is modelled as an association
list; keys stay unique because updates go through `assocSet`). -/
inductive LevelNode (T : Type) : Type where
  | mk (dst : Option T) (next_lvs : List (Label × LevelNode T)) : LevelNode T

variable {T : Type}

/-- The payload slot of a node. -/
def LevelNode.dst : LevelNode T → Option T
  | .mk d _ => d

/-- The children map of a node. -/
def LevelNode.next_lvs : LevelNode T → List (Label × LevelNode T)
  | .mk _ ch => ch

/-- `LevelNode::new()`: an empty node with no payload and no children. -/
def LevelNode.new : LevelNode T := .mk none []

/-- Lookup in the children association list (`HashMap::get`). -/
def assocGet : List (Label × LevelNode T) → Label → Option (LevelNode T)
  | [], _ => none
  | (b, y) :: rest, a => if b = a then some y else assocGet rest a

/-- Update/insert in the children association list
(`HashMap::entry` + write-back). -/
def assocSet : List (Label × LevelNode T) → Label → LevelNode T → List (Label × LevelNode T)
  | [], a, x => [(a, x)]
  | (b, y) :: rest, a, x => if b = a then (a, x) :: rest else (b, y) :: assocSet rest a x

/-- The label walk of `Dmatcher::insert`: walk/create nodes along the
(already reversed) label list, re-parsing each label with
`from_raw_bytes`, and set the payload at the terminal node.  Mirrors the
in-place mutation of the Rust loop: entries created before a failing
re-parse remain, the payload is only set when every label succeeded. -/
def insertLabelsMut : LevelNode T → List Label → T → LevelNode T × Option DomainError
  | n, [], v => (.mk (some v) n.next_lvs, none)
  | n, a :: rest, v =>
    match from_raw_bytes a with
    | .error e => (n, some e)
    | .ok key =>
      let r := insertLabelsMut ((assocGet n.next_lvs key).getD LevelNode.new) rest v
      (.mk n.dst (assocSet n.next_lvs key r.1), r.2)

/-- The label walk of `Dmatcher::matches`: break early (returning the
current node's payload) at a childless node, return `none` on a missing
edge, and return the payload of the node reached when all labels are
consumed. -/
def matchesLabels : LevelNode T → List Label → Except DomainError (Option T)
  | n, [] => .ok n.dst
  | n, a :: rest =>
    if n.next_lvs.isEmpty then .ok n.dst
    else
      match from_raw_bytes a with
      | .error e => .error e
      | .ok key =>
        match assocGet n.next_lvs key with
        | some c => matchesLabels c rest
        | none => .ok none

/-- `Dmatcher<T>`: the matcher owns the root trie node. -/
structure Dmatcher (T : Type) : Type where
  root : LevelNode T

/-- `Dmatcher::new()`. -/
def Dmatcher.new : Dmatcher T := ⟨LevelNode.new⟩

/-- `Dmatcher::insert`: parse the domain into labels, then walk/create the
trie along the reversed labels and set the payload at the terminal node.
The pair carries the possibly-mutated matcher and the error, mirroring the
in-place Rust mutation. -/
def Dmatcher.insert (m : Dmatcher T) (domain : String) (v : T) : Dmatcher T × Option DomainError :=
  match into_name domain with
  | .error e => (m, some e)
  | .ok lvs =>
    let r := insertLabelsMut m.root lvs.reverse v
    (⟨r.1⟩, r.2)

/-- `Dmatcher::matches`: parse the domain into labels and walk the trie
along the reversed labels. -/
def Dmatcher.matches (m : Dmatcher T) (domain : String) : Except DomainError (Option T) :=
  match into_name domain with
  | .error e => .error e
  | .ok lvs => matchesLabels m.root lvs.reverse

/-- The loop of `Dmatcher::insert_lines`: insert each line in order,
aborting at the first error (the `?` operator). -/
def insertLinesGo (v : T) : Dmatcher T → List (List Char) → Dmatcher T × Option DomainError
  | m, [] => (m, none)
  | m, l :: rest =>
    match m.insert (String.mk l) v with
    | (m2, none) => insertLinesGo v m2 rest
    | (m2, some e) => (m2, some e)

/-- `Dmatcher::insert_lines`: split the input on the newline character and
insert every line (the Rust loop iterates over all pieces of
`split('\n')`, empty pieces included). -/
def Dmatcher.insert_lines (m : Dmatcher T) (domain : String) (v : T) : Dmatcher T × Option DomainError :=
  insertLinesGo v m (splitSep '\n' domain.data)

/-- Modelled from the spec: the claimed behaviour of bulk insertion, which
calls insert once per NON-EMPTY line ("splits on line separator and calls
`insert` once per non-empty line, in order").  Stated for comparison with
the implementation `Dmatcher.insert_lines`. -/
def insert_lines_claimed (m : Dmatcher T) (domain : String) (v : T) :
    Dmatcher T × Option DomainError :=
  insertLinesGo v m ((splitSep '\n' domain.data).filter (fun l => !l.isEmpty))

/-- Build a matcher from a list of (domain, payload) rules by repeated
insertion starting from the empty matcher. -/
def buildList (rules : List (String × T)) : Dmatcher T :=
  rules.foldl (fun m r => (m.insert r.1 r.2).1) Dmatcher.new

/-- Plain left fold of insertion over a list of lines (no early abort);
used to state what a successful prefix of a bulk insertion produces. -/
def insertFold (m : Dmatcher T) (lines : List (List Char)) (v : T) : Dmatcher T :=
  lines.foldl (fun m l => (m.insert (String.mk l) v).1) m

/-- The error-free insertion walk (what `insertLabelsMut` does when every
label passes the re-parse). -/
def insOk : LevelNode T → List Label → T → LevelNode T
  | n, [], v => .mk (some v) n.next_lvs
  | n, a :: rest, v =>
    .mk n.dst (assocSet n.next_lvs a (insOk ((assocGet n.next_lvs a).getD LevelNode.new) rest v))

/-- Follow a path of labels through trie edges. -/
def findPath : LevelNode T → List Label → Option (LevelNode T)
  | n, [] => some n
  | n, a :: rest =>
    match assocGet n.next_lvs a with
    | some c => findPath c rest
    | none => none

/-- The node at path `p` has an edge labelled `a`. -/
def childAt (n : LevelNode T) (p : List Label) (a : Label) : Option (LevelNode T) :=
  match findPath n p with
  | some m => assocGet m.next_lvs a
  | none => none

/-- There is a node at path `p` carrying a payload. -/
def SomeAt (root : LevelNode T) (p : List Label) : Prop :=
  ∃ n, findPath root p = some n ∧ n.dst.isSome = true

/-- Every label of the list is valid. -/
abbrev validLabels (p : List Label) : Prop := ∀ l ∈ p, validLabel l = true

/-- Strip the empty labels of a domain: rebuild it from its non-empty
dot-separated pieces. -/
def stripEmpty (s : String) : String :=
  String.mk (joinSep '.' ((splitSep '.' s.data).filter (fun l => !l.isEmpty)))

/-- Every childless node of the tree carries a payload. -/
inductive LeafSome : LevelNode T → Prop where
  | mk : ∀ (d : Option T) (ch : List (Label × LevelNode T)),
      (ch = [] → d.isSome = true) → (∀ e ∈ ch, LeafSome e.2) → LeafSome (.mk d ch)

/-- No edge of the tree is labelled by the empty label. -/
inductive EdgesNonempty : LevelNode T → Prop where
  | mk : ∀ (d : Option T) (ch : List (Label × LevelNode T)),
      (∀ e ∈ ch, e.1 ≠ []) → (∀ e ∈ ch, EdgesNonempty e.2) → EdgesNonempty (.mk d ch)

example : into_name ("apple.com") = .ok [['a','p','p','l','e'], ['c','o','m']] := rfl

example : into_name (".apple..com.") = .ok [['a','p','p','l','e'], ['c','o','m']] := rfl

example : into_name ("") = .ok [] := rfl

example :
    (buildList [("apple.com", (1 : Nat)), ("apple.cn", 2)]).matches ("store.apple.com") =
      .ok (some 1) := rfl

example : (buildList [("apple.com", (1 : Nat)), ("apple.cn", 2)]).matches ("baidu") =
    .ok none := rfl

example :
    (buildList [("apple.com", (1 : Nat)), ("apple.cn", 2)]).matches ("你好.store.www.apple.cn") =
      .ok (some 2) := rfl

example :
    (buildList [("apple.com", (1 : Nat)), ("x.store.apple.com", 2)]).matches ("store.apple.com") =
      .ok none := rfl

example : ((Dmatcher.new : Dmatcher Nat).insert_lines ("") 1).1.matches ("x") = .ok (some 1) := rfl

@[simp]
theorem LevelNode.dst_mk (d : Option T) (ch : List (Label × LevelNode T)) :
    (LevelNode.mk d ch).dst = d := rfl

@[simp]
theorem LevelNode.next_lvs_mk (d : Option T) (ch : List (Label × LevelNode T)) :
    (LevelNode.mk d ch).next_lvs = ch := rfl

theorem assocGet_set_self (ch : List (Label × LevelNode T)) (a : Label) (x : LevelNode T) :
    assocGet (assocSet ch a x) a = some x := by
  induction ch with
  | nil => simp [assocSet, assocGet]
  | cons e rest ih =>
    obtain ⟨b, y⟩ := e
    by_cases hb : b = a
    · simp [assocSet, assocGet, hb]
    · simp [assocSet, assocGet, hb, ih]

theorem assocGet_set_ne (ch : List (Label × LevelNode T)) (a b : Label) (x : LevelNode T)
    (hab : b ≠ a) : assocGet (assocSet ch a x) b = assocGet ch b := by
  have hab2 : a ≠ b := fun h => hab h.symm
  induction ch with
  | nil => simp [assocSet, assocGet, hab2]
  | cons e rest ih =>
    obtain ⟨c, y⟩ := e
    by_cases hc : c = a
    · subst hc
      simp [assocSet, assocGet, hab2]
    · by_cases hcb : c = b <;> simp [assocSet, assocGet, hc, hcb, hab, ih]

theorem assocSet_set (ch : List (Label × LevelNode T)) (a : Label) (x y : LevelNode T) :
    assocSet (assocSet ch a x) a y = assocSet ch a y := by
  induction ch with
  | nil => simp [assocSet]
  | cons e rest ih =>
    obtain ⟨b, z⟩ := e
    by_cases hb : b = a
    · simp [assocSet, hb]
    · simp [assocSet, hb, ih]

theorem assocSet_ne_nil (ch : List (Label × LevelNode T)) (a : Label) (x : LevelNode T) :
    assocSet ch a x ≠ [] := by
  cases ch with
  | nil => simp [assocSet]
  | cons e rest =>
    obtain ⟨b, y⟩ := e
    by_cases hb : b = a <;> simp [assocSet, hb]

theorem mem_assocSet (ch : List (Label × LevelNode T)) (a : Label) (x : LevelNode T)
    (e : Label × LevelNode T) (he : e ∈ assocSet ch a x) : e = (a, x) ∨ e ∈ ch := by
  induction ch with
  | nil => simpa [assocSet] using he
  | cons f rest ih =>
    obtain ⟨b, y⟩ := f
    by_cases hb : b = a
    · simp only [assocSet, if_pos hb] at he
      rcases List.mem_cons.mp he with h | h
      · exact Or.inl h
      · exact Or.inr (List.mem_cons_of_mem _ h)
    · simp only [assocSet, if_neg hb] at he
      rcases List.mem_cons.mp he with h | h
      · exact Or.inr (by simp [h])
      · rcases ih h with h2 | h2
        · exact Or.inl h2
        · exact Or.inr (List.mem_cons_of_mem _ h2)

theorem splitSep_ne_nil (sep : Char) (cs : List Char) : splitSep sep cs ≠ [] := by
  cases cs with
  | nil => simp [splitSep]
  | cons c cs =>
    cases h : splitSep sep cs with
    | nil => simp [splitSep, h]
    | cons l ls =>
      by_cases hc : c = sep <;> simp [splitSep, h, hc]

theorem splitSep_append (sep : Char) (xs ys : List Char) :
    splitSep sep (xs ++ sep :: ys) = splitSep sep xs ++ splitSep sep ys := by
  induction xs with
  | nil =>
    cases h : splitSep sep ys with
    | nil => exact absurd h (splitSep_ne_nil sep ys)
    | cons l ls => simp [splitSep, h]
  | cons c xs ih =>
    cases h : splitSep sep xs with
    | nil => exact absurd h (splitSep_ne_nil sep xs)
    | cons l ls =>
      by_cases hc : c = sep <;>
        simp [splitSep, List.cons_append, ih, h, hc]

theorem not_mem_of_mem_splitSep (sep : Char) (cs : List Char) :
    ∀ l ∈ splitSep sep cs, sep ∉ l := by
  induction cs with
  | nil =>
    intro l hl
    simp only [splitSep, List.mem_singleton] at hl
    subst hl
    simp
  | cons c cs ih =>
    intro l hl
    cases h : splitSep sep cs with
    | nil => exact absurd h (splitSep_ne_nil sep cs)
    | cons m ms =>
      by_cases hc : c = sep
      · simp only [splitSep, h, if_pos hc] at hl
        rcases List.mem_cons.mp hl with h1 | h1
        · subst h1; simp
        · exact ih l (by rw [h]; exact h1)
      · simp only [splitSep, h, if_neg hc] at hl
        rcases List.mem_cons.mp hl with h1 | h1
        · subst h1
          intro hmem
          rcases List.mem_cons.mp hmem with h2 | h2
          · exact hc h2.symm
          · exact ih m (by rw [h]; exact List.mem_cons_self m ms) h2
        · exact ih l (by rw [h]; exact List.mem_cons_of_mem _ h1)

theorem splitSep_of_not_mem (sep : Char) (l : List Char) (hl : sep ∉ l) :
    splitSep sep l = [l] := by
  induction l with
  | nil => simp [splitSep]
  | cons c cs ih =>
    have hc : c ≠ sep := fun h => hl (by simp [h])
    have hcs : sep ∉ cs := fun h => hl (List.mem_cons_of_mem _ h)
    simp [splitSep, ih hcs, hc]

theorem splitSep_joinSep (sep : Char) (ps : List (List Char))
    (hps : ∀ l ∈ ps, sep ∉ l) (hne : ps ≠ []) :
    splitSep sep (joinSep sep ps) = ps := by
  induction ps with
  | nil => exact absurd rfl hne
  | cons l ls ih =>
    cases ls with
    | nil => exact splitSep_of_not_mem sep l (hps l (by simp))
    | cons l2 ls2 =>
      have h1 : joinSep sep (l :: l2 :: ls2) = l ++ sep :: joinSep sep (l2 :: ls2) := rfl
      rw [h1, splitSep_append, splitSep_of_not_mem sep l (hps l (by simp)),
        ih (fun m hm => hps m (List.mem_cons_of_mem _ hm)) (by simp)]
      rfl

theorem into_name_ok_valid {s : String} {ls : List Label} (h : into_name s = .ok ls) :
    validLabels ls := by
  simp only [into_name] at h
  split at h
  case isTrue hall =>
    cases h
    intro l hl
    exact List.all_eq_true.mp hall l hl
  case isFalse hall => exact Except.noConfusion h

theorem into_name_ok_mem_ne_nil {s : String} {ls : List Label} (h : into_name s = .ok ls) :
    ∀ l ∈ ls, l ≠ [] := by
  simp only [into_name] at h
  split at h
  case isTrue hall =>
    cases h
    intro l hl
    have := List.of_mem_filter hl
    simpa using this
  case isFalse hall => exact Except.noConfusion h

theorem from_raw_bytes_of_valid {l : Label} (h : validLabel l = true) :
    from_raw_bytes l = .ok l := by
  have h2 : labelBytes l ≤ 63 := by simpa [validLabel] using h
  simp [from_raw_bytes, h2]

theorem insertLabelsMut_eq {p : List Label} (hp : validLabels p) (n : LevelNode T) (v : T) :
    insertLabelsMut n p v = (insOk n p v, none) := by
  induction p generalizing n with
  | nil => rfl
  | cons a rest ih =>
    have ha : from_raw_bytes a = .ok a := from_raw_bytes_of_valid (hp a (by simp))
    have hrest : validLabels rest := fun l hl => hp l (List.mem_cons_of_mem _ hl)
    simp [insertLabelsMut, insOk, ha, ih hrest]

theorem insert_ok {m : Dmatcher T} {R : String} {ls : List Label} {v : T}
    (h : into_name R = .ok ls) :
    m.insert R v = (⟨insOk m.root ls.reverse v⟩, none) := by
  have hv : validLabels ls.reverse := fun l hl =>
    into_name_ok_valid h l (List.mem_reverse.mp hl)
  simp [Dmatcher.insert, h, insertLabelsMut_eq hv]

theorem insert_err {m : Dmatcher T} {R : String} {e : DomainError} {v : T}
    (h : into_name R = .error e) : m.insert R v = (m, some e) := by
  simp [Dmatcher.insert, h]

theorem findPath_append (n : LevelNode T) (p q : List Label) :
    findPath n (p ++ q) = (findPath n p).bind (fun m => findPath m q) := by
  induction p generalizing n with
  | nil => simp [findPath]
  | cons a rest ih =>
    cases h : assocGet n.next_lvs a with
    | some c => simp [findPath, h, ih]
    | none => simp [findPath, h]

theorem not_someAt_new (p : List Label) : ¬ SomeAt (LevelNode.new : LevelNode T) p := by
  rintro ⟨n, hn, hd⟩
  cases p with
  | nil =>
    simp only [findPath, Option.some.injEq] at hn
    subst hn
    simp [LevelNode.new, LevelNode.dst] at hd
  | cons a rest => simp [findPath, LevelNode.new, LevelNode.next_lvs, assocGet] at hn

theorem childAt_new (p : List Label) (a : Label) :
    childAt (LevelNode.new : LevelNode T) p a = none := by
  cases p with
  | nil => simp [childAt, findPath, LevelNode.new, LevelNode.next_lvs, assocGet]
  | cons b rest => simp [childAt, findPath, LevelNode.new, LevelNode.next_lvs, assocGet]

theorem findPath_insOk (n : LevelNode T) (p : List Label) (v : T) :
    ∃ m, findPath (insOk n p v) p = some m ∧ m.dst = some v := by
  induction p generalizing n with
  | nil => exact ⟨_, rfl, rfl⟩
  | cons a rest ih =>
    obtain ⟨m, hm, hd⟩ := ih ((assocGet n.next_lvs a).getD LevelNode.new)
    refine ⟨m, ?_, hd⟩
    simp [insOk, findPath, assocGet_set_self, hm]

theorem someAt_insOk {n : LevelNode T} {p : List Label} (q : List Label) (v : T)
    (h : SomeAt n p) : SomeAt (insOk n q v) p := by
  induction p generalizing n q with
  | nil =>
    obtain ⟨m, hm, hd⟩ := h
    simp only [findPath, Option.some.injEq] at hm
    subst hm
    cases q with
    | nil => exact ⟨_, rfl, rfl⟩
    | cons b q2 => exact ⟨_, rfl, by simpa [insOk, LevelNode.dst] using hd⟩
  | cons a p2 ih =>
    obtain ⟨m, hm, hd⟩ := h
    cases hg : assocGet n.next_lvs a with
    | none => simp [findPath, hg] at hm
    | some c =>
      simp only [findPath, hg] at hm
      cases q with
      | nil =>
        exact ⟨m, by simp [insOk, findPath, hg, hm], hd⟩
      | cons b q2 =>
        by_cases hab : a = b
        · subst hab
          obtain ⟨m2, hm2, hd2⟩ := ih q2 ⟨m, hm, hd⟩
          refine ⟨m2, ?_, hd2⟩
          simp [insOk, findPath, assocGet_set_self, hg, hm2]
        · refine ⟨m, ?_, hd⟩
          have hne : a ≠ b := hab
          simp [insOk, findPath, assocGet_set_ne n.next_lvs b a _ hne, hg, hm]

theorem assocGet_isEmpty_false {ch : List (Label × LevelNode T)} {a : Label} {c : LevelNode T}
    (h : assocGet ch a = some c) : ch.isEmpty = false := by
  cases ch with
  | nil => simp [assocGet] at h
  | cons e rest => rfl

theorem matchesLabels_of_findPath (p : List Label) :
    ∀ (n m : LevelNode T), validLabels p → findPath n p = some m →
    ∀ rest, matchesLabels n (p ++ rest) = matchesLabels m rest := by
  induction p with
  | nil =>
    intro n m _ hm rest
    simp only [findPath, Option.some.injEq] at hm
    subst hm
    rfl
  | cons a p2 ih =>
    intro n m hp hm rest
    cases hg : assocGet n.next_lvs a with
    | none => simp [findPath, hg] at hm
    | some c =>
      simp only [findPath, hg] at hm
      have ha : from_raw_bytes a = .ok a := from_raw_bytes_of_valid (hp a (by simp))
      have hp2 : validLabels p2 := fun l hl => hp l (List.mem_cons_of_mem _ hl)
      have hne : n.next_lvs.isEmpty = false := assocGet_isEmpty_false hg
      simp [matchesLabels, hne, ha, hg, ih c m hp2 hm rest]

theorem matchesLabels_childless {n : LevelNode T} (h : n.next_lvs = []) (p : List Label) :
    matchesLabels n p = .ok n.dst := by
  cases p with
  | nil => rfl
  | cons a rest => simp [matchesLabels, h]

theorem someAt_insOk_rev (p : List Label) :
    ∀ (n : LevelNode T) (q : List Label) (v : T),
    SomeAt (insOk n q v) p → SomeAt n p ∨ p = q := by
  induction p with
  | nil =>
    rintro n q v ⟨m, hm, hd⟩
    cases q with
    | nil => exact Or.inr rfl
    | cons b q2 =>
      simp only [findPath, Option.some.injEq] at hm
      subst hm
      refine Or.inl ⟨n, rfl, ?_⟩
      simpa [insOk] using hd
  | cons a p2 ih =>
    rintro n q v ⟨m, hm, hd⟩
    cases q with
    | nil =>
      left
      cases hg : assocGet n.next_lvs a with
      | none => simp [insOk, findPath, hg] at hm
      | some c =>
        simp only [insOk, findPath, LevelNode.next_lvs_mk, hg] at hm
        exact ⟨m, by simp [findPath, hg, hm], hd⟩
    | cons b q2 =>
      by_cases hab : a = b
      · subst hab
        have hm2 : findPath (insOk ((assocGet n.next_lvs a).getD LevelNode.new) q2 v) p2 =
            some m := by
          simpa [insOk, findPath, assocGet_set_self] using hm
        rcases ih _ q2 v ⟨m, hm2, hd⟩ with h | h
        · cases hg : assocGet n.next_lvs a with
          | none =>
            rw [hg] at h
            simp only [Option.getD_none] at h
            exact absurd h (not_someAt_new p2)
          | some c =>
            rw [hg] at h
            simp only [Option.getD_some] at h
            obtain ⟨m3, hm3, hd3⟩ := h
            exact Or.inl ⟨m3, by simp [findPath, hg, hm3], hd3⟩
        · exact Or.inr (by rw [h])
      · have hm2 : findPath n (a :: p2) = some m := by
          simpa [insOk, findPath, assocGet_set_ne n.next_lvs b a _ hab] using hm
        exact Or.inl ⟨m, hm2, hd⟩

theorem childAt_insOk_rev (p : List Label) :
    ∀ (n : LevelNode T) (q : List Label) (a : Label) (v : T),
    childAt (insOk n q v) p a ≠ none → childAt n p a ≠ none ∨ (p ++ [a]) <+: q := by
  induction p with
  | nil =>
    intro n q a v h
    cases q with
    | nil =>
      left
      simpa [childAt, findPath, insOk] using h
    | cons b q2 =>
      by_cases hab : a = b
      · subst hab
        exact Or.inr ⟨q2, rfl⟩
      · left
        simp only [childAt, findPath, insOk, LevelNode.next_lvs_mk] at h ⊢
        rwa [assocGet_set_ne n.next_lvs b a _ hab] at h
  | cons c p2 ih =>
    intro n q a v h
    cases q with
    | nil =>
      left
      exact h
    | cons b q2 =>
      by_cases hcb : c = b
      · subst hcb
        have h2 : childAt (insOk ((assocGet n.next_lvs c).getD LevelNode.new) q2 v) p2 a ≠
            none := by
          simpa [childAt, findPath, insOk, assocGet_set_self] using h
        rcases ih _ q2 a v h2 with h3 | h3
        · cases hg : assocGet n.next_lvs c with
          | none =>
            rw [hg] at h3
            simp only [Option.getD_none] at h3
            exact absurd (childAt_new p2 a) h3
          | some c1 =>
            rw [hg] at h3
            simp only [Option.getD_some] at h3
            left
            simpa [childAt, findPath, hg] using h3
        · obtain ⟨t, ht⟩ := h3
          exact Or.inr ⟨t, by simp [List.cons_append, ht]⟩
      · left
        simp only [childAt, findPath, insOk, LevelNode.next_lvs_mk] at h ⊢
        rwa [assocGet_set_ne n.next_lvs b c _ hcb] at h

theorem insOk_insOk (p : List Label) : ∀ (n : LevelNode T) (v1 v2 : T),
    insOk (insOk n p v1) p v2 = insOk n p v2 := by
  induction p with
  | nil => intro n v1 v2; rfl
  | cons a p2 ih =>
    intro n v1 v2
    simp only [insOk, LevelNode.next_lvs_mk, LevelNode.dst_mk, assocGet_set_self,
      Option.getD_some, assocSet_set]
    rw [ih]

theorem mem_of_assocGet {ch : List (Label × LevelNode T)} {a : Label} {c : LevelNode T}
    (h : assocGet ch a = some c) : (a, c) ∈ ch := by
  induction ch with
  | nil => simp [assocGet] at h
  | cons e rest ih =>
    obtain ⟨b, y⟩ := e
    by_cases hb : b = a
    · subst hb
      have h2 : y = c := by simpa [assocGet] using h
      subst h2
      exact List.mem_cons_self _ _
    · simp only [assocGet, if_neg hb] at h
      exact List.mem_cons_of_mem _ (ih h)

theorem someAt_foldl_pres (rules : List (String × T)) :
    ∀ (m : Dmatcher T) (p : List Label), SomeAt m.root p →
    SomeAt ((rules.foldl (fun m r => (m.insert r.1 r.2).1) m)).root p := by
  induction rules with
  | nil => intro m p h; exact h
  | cons r rs ih =>
    intro m p h
    simp only [List.foldl_cons]
    apply ih
    cases hin : into_name r.1 with
    | error e => rw [insert_err hin]; exact h
    | ok ls => rw [insert_ok hin]; exact someAt_insOk _ _ h

theorem someAt_foldl_rev (rules : List (String × T)) :
    ∀ (m : Dmatcher T) (p : List Label),
    SomeAt ((rules.foldl (fun m r => (m.insert r.1 r.2).1) m)).root p →
    SomeAt m.root p ∨ ∃ r ∈ rules, ∃ qs, into_name r.1 = .ok qs ∧ p = qs.reverse := by
  induction rules with
  | nil => intro m p h; exact Or.inl h
  | cons r rs ih =>
    intro m p h
    simp only [List.foldl_cons] at h
    rcases ih _ p h with h2 | h2
    · cases hin : into_name r.1 with
      | error e =>
        rw [insert_err hin] at h2
        exact Or.inl h2
      | ok ls =>
        rw [insert_ok hin] at h2
        rcases someAt_insOk_rev p m.root ls.reverse r.2 h2 with h3 | h3
        · exact Or.inl h3
        · exact Or.inr ⟨r, by simp, ls, hin, h3⟩
    · obtain ⟨r2, hr2, qs, hqs, hp⟩ := h2
      exact Or.inr ⟨r2, List.mem_cons_of_mem _ hr2, qs, hqs, hp⟩

theorem someAt_buildList {rules : List (String × T)} {p : List Label}
    (h : SomeAt (buildList rules).root p) :
    ∃ r ∈ rules, ∃ qs, into_name r.1 = .ok qs ∧ p = qs.reverse := by
  rcases someAt_foldl_rev rules Dmatcher.new p h with h2 | h2
  · exact absurd h2 (not_someAt_new p)
  · exact h2

theorem childAt_foldl_rev (rules : List (String × T)) :
    ∀ (m : Dmatcher T) (p : List Label) (a : Label),
    childAt ((rules.foldl (fun m r => (m.insert r.1 r.2).1) m)).root p a ≠ none →
    childAt m.root p a ≠ none ∨
      ∃ r ∈ rules, ∃ qs, into_name r.1 = .ok qs ∧ (p ++ [a]) <+: qs.reverse := by
  induction rules with
  | nil => intro m p a h; exact Or.inl h
  | cons r rs ih =>
    intro m p a h
    simp only [List.foldl_cons] at h
    rcases ih _ p a h with h2 | h2
    · cases hin : into_name r.1 with
      | error e =>
        rw [insert_err hin] at h2
        exact Or.inl h2
      | ok ls =>
        rw [insert_ok hin] at h2
        rcases childAt_insOk_rev p m.root ls.reverse a r.2 h2 with h3 | h3
        · exact Or.inl h3
        · exact Or.inr ⟨r, by simp, ls, hin, h3⟩
    · obtain ⟨r2, hr2, qs, hqs, hp⟩ := h2
      exact Or.inr ⟨r2, List.mem_cons_of_mem _ hr2, qs, hqs, hp⟩

theorem childAt_buildList {rules : List (String × T)} {p : List Label} {a : Label}
    (h : childAt (buildList rules).root p a ≠ none) :
    ∃ r ∈ rules, ∃ qs, into_name r.1 = .ok qs ∧ (p ++ [a]) <+: qs.reverse := by
  rcases childAt_foldl_rev rules Dmatcher.new p a h with h2 | h2
  · exact absurd (childAt_new p a) h2
  · exact h2

theorem someAt_buildList_of_mem {rules : List (String × T)} {R : String} {v : T}
    {rs : List Label} (hmem : (R, v) ∈ rules) (hok : into_name R = .ok rs) :
    SomeAt (buildList rules).root rs.reverse := by
  obtain ⟨pre, post, hsplit⟩ := List.append_of_mem hmem
  subst hsplit
  unfold buildList
  rw [List.foldl_append, List.foldl_cons]
  apply someAt_foldl_pres
  rw [insert_ok hok]
  obtain ⟨m, hm, hd⟩ :=
    findPath_insOk (List.foldl (fun m r => (m.insert r.1 r.2).1) Dmatcher.new pre).root
      rs.reverse v
  exact ⟨m, hm, by simp [hd]⟩

theorem leafSome_children {n : LevelNode T} (h : LeafSome n) :
    ∀ e ∈ n.next_lvs, LeafSome e.2 := by
  cases h with
  | mk d ch hd hch => exact hch

theorem leafSome_dst {n : LevelNode T} (h : LeafSome n) (hch : n.next_lvs = []) :
    n.dst.isSome = true := by
  cases h with
  | mk d ch h1 h2 => exact h1 (by simpa using hch)

theorem leafSome_insOk (p : List Label) :
    ∀ (n : LevelNode T) (v : T), (∀ e ∈ n.next_lvs, LeafSome e.2) →
    LeafSome (insOk n p v) := by
  induction p with
  | nil =>
    intro n v hch
    exact LeafSome.mk (some v) n.next_lvs (fun _ => rfl) hch
  | cons a p2 ih =>
    intro n v hch
    refine LeafSome.mk n.dst _ ?_ ?_
    · intro hnil
      exact absurd hnil (assocSet_ne_nil _ _ _)
    · intro e he
      rcases mem_assocSet _ _ _ e he with h1 | h1
      · subst h1
        apply ih
        cases hg : assocGet n.next_lvs a with
        | none =>
          intro e2 he2
          simp [LevelNode.new] at he2
        | some c =>
          simp only [Option.getD_some]
          exact leafSome_children (hch (a, c) (mem_of_assocGet hg))
      · exact hch e h1

theorem leafSome_findPath (p : List Label) :
    ∀ (n m : LevelNode T), LeafSome n → findPath n p = some m → LeafSome m := by
  induction p with
  | nil =>
    intro n m h hm
    simp only [findPath, Option.some.injEq] at hm
    subst hm
    exact h
  | cons a p2 ih =>
    intro n m h hm
    cases hg : assocGet n.next_lvs a with
    | none => simp [findPath, hg] at hm
    | some c =>
      simp only [findPath, hg] at hm
      exact ih c m (leafSome_children h (a, c) (mem_of_assocGet hg)) hm

theorem childrenLeafSome_step (m : Dmatcher T) (r : String × T)
    (h : ∀ e ∈ m.root.next_lvs, LeafSome e.2) :
    ∀ e ∈ ((m.insert r.1 r.2).1).root.next_lvs, LeafSome e.2 := by
  cases hin : into_name r.1 with
  | error e2 => rw [insert_err hin]; exact h
  | ok ls =>
    rw [insert_ok hin]
    exact leafSome_children (leafSome_insOk ls.reverse m.root r.2 h)

theorem childrenLeafSome_foldl (rules : List (String × T)) :
    ∀ (m : Dmatcher T), (∀ e ∈ m.root.next_lvs, LeafSome e.2) →
    ∀ e ∈ ((rules.foldl (fun m r => (m.insert r.1 r.2).1) m)).root.next_lvs, LeafSome e.2 := by
  induction rules with
  | nil => intro m h; exact h
  | cons r rs ih =>
    intro m h
    simp only [List.foldl_cons]
    exact ih _ (childrenLeafSome_step m r h)

theorem leafSome_buildList {rules : List (String × T)} (hne : rules ≠ [])
    (hok : ∀ r ∈ rules, ∃ ls, into_name r.1 = .ok ls) :
    LeafSome (buildList rules).root := by
  obtain ⟨rs, r, hsplit⟩ : ∃ rs r, rules = rs ++ [r] := by
    rcases List.eq_nil_or_concat rules with h | ⟨rs, r, h⟩
    · exact absurd h hne
    · exact ⟨rs, r, by simpa [List.concat_eq_append] using h⟩
  subst hsplit
  unfold buildList
  rw [List.foldl_append, List.foldl_cons, List.foldl_nil]
  have hc : ∀ e ∈ (List.foldl (fun m r => (m.insert r.1 r.2).1) Dmatcher.new rs).root.next_lvs,
      LeafSome e.2 := by
    apply childrenLeafSome_foldl
    intro e he
    simp [Dmatcher.new, LevelNode.new] at he
  obtain ⟨ls, hin⟩ := hok r (by simp)
  rw [insert_ok hin]
  exact leafSome_insOk ls.reverse _ r.2 hc

theorem edgesNonempty_children {n : LevelNode T} (h : EdgesNonempty n) :
    ∀ e ∈ n.next_lvs, e.1 ≠ [] ∧ EdgesNonempty e.2 := by
  cases h with
  | mk d ch h1 h2 => exact fun e he => ⟨h1 e he, h2 e he⟩

theorem edgesNonempty_insOk (p : List Label) :
    ∀ (n : LevelNode T) (v : T), (∀ l ∈ p, l ≠ []) → EdgesNonempty n →
    EdgesNonempty (insOk n p v) := by
  induction p with
  | nil =>
    intro n v _ h
    cases h with
    | mk d ch h1 h2 => exact EdgesNonempty.mk _ _ h1 h2
  | cons a p2 ih =>
    intro n v hp h
    refine EdgesNonempty.mk n.dst _ ?_ ?_
    · intro e he
      rcases mem_assocSet _ _ _ e he with h1 | h1
      · subst h1
        exact hp a (by simp)
      · exact (edgesNonempty_children h e h1).1
    · intro e he
      rcases mem_assocSet _ _ _ e he with h1 | h1
      · subst h1
        apply ih
        · exact fun l hl => hp l (List.mem_cons_of_mem _ hl)
        · cases hg : assocGet n.next_lvs a with
          | none => exact EdgesNonempty.mk none [] (by simp) (by simp)
          | some c =>
            simp only [Option.getD_some]
            exact (edgesNonempty_children h (a, c) (mem_of_assocGet hg)).2
      · exact (edgesNonempty_children h e h1).2

theorem edgesNonempty_step (m : Dmatcher T) (r : String × T) (h : EdgesNonempty m.root) :
    EdgesNonempty ((m.insert r.1 r.2).1).root := by
  cases hin : into_name r.1 with
  | error e => rw [insert_err hin]; exact h
  | ok ls =>
    rw [insert_ok hin]
    apply edgesNonempty_insOk
    · intro l hl
      exact into_name_ok_mem_ne_nil hin l (List.mem_reverse.mp hl)
    · exact h

theorem edgesNonempty_foldl (rules : List (String × T)) :
    ∀ (m : Dmatcher T), EdgesNonempty m.root →
    EdgesNonempty ((rules.foldl (fun m r => (m.insert r.1 r.2).1) m)).root := by
  induction rules with
  | nil => intro m h; exact h
  | cons r rs ih =>
    intro m h
    simp only [List.foldl_cons]
    exact ih _ (edgesNonempty_step m r h)

theorem edgesNonempty_buildList (rules : List (String × T)) :
    EdgesNonempty (buildList rules).root :=
  edgesNonempty_foldl rules Dmatcher.new (EdgesNonempty.mk none [] (by simp) (by simp))

theorem matchesLabels_none (p : List Label) :
    ∀ (p0 : List Label) (root n : LevelNode T), validLabels p →
    findPath root p0 = some n →
    (∀ q, q <+: p → ¬ SomeAt root (p0 ++ q)) →
    matchesLabels n p = .ok none := by
  induction p with
  | nil =>
    intro p0 root n _ hf hq
    have h0 := hq [] ⟨[], rfl⟩
    rw [List.append_nil] at h0
    have hd : n.dst = none := by
      cases hdst : n.dst with
      | none => rfl
      | some w => exact absurd ⟨n, hf, by simp [hdst]⟩ h0
    simp [matchesLabels, hd]
  | cons a p2 ih =>
    intro p0 root n hp hf hq
    by_cases hch : n.next_lvs.isEmpty = true
    · have h0 := hq [] ⟨a :: p2, rfl⟩
      rw [List.append_nil] at h0
      have hd : n.dst = none := by
        cases hdst : n.dst with
        | none => rfl
        | some w => exact absurd ⟨n, hf, by simp [hdst]⟩ h0
      simp [matchesLabels, hch, hd]
    · rw [Bool.not_eq_true] at hch
      have ha : from_raw_bytes a = .ok a := from_raw_bytes_of_valid (hp a (by simp))
      cases hg : assocGet n.next_lvs a with
      | none => simp [matchesLabels, hch, ha, hg]
      | some c =>
        have hf2 : findPath root (p0 ++ [a]) = some c := by
          rw [findPath_append, hf]
          simp [findPath, hg]
        have hq2 : ∀ q, q <+: p2 → ¬ SomeAt root ((p0 ++ [a]) ++ q) := by
          intro q hpre
          rw [List.append_assoc]
          obtain ⟨t, ht⟩ := hpre
          exact hq (a :: q) ⟨t, by simp [ht]⟩
        have hp2 : validLabels p2 := fun l hl => hp l (List.mem_cons_of_mem _ hl)
        have hrec := ih (p0 ++ [a]) root c hp2 hf2 hq2
        simp [matchesLabels, hch, ha, hg, hrec]

theorem into_name_stripEmpty (s : String) : into_name (stripEmpty s) = into_name s := by
  have hdata : (stripEmpty s).data =
      joinSep '.' ((splitSep '.' s.data).filter (fun l => !l.isEmpty)) := rfl
  by_cases hf : (splitSep '.' s.data).filter (fun l => !l.isEmpty) = []
  · simp only [into_name, hdata, hf]
    rfl
  · have hmem : ∀ l ∈ (splitSep '.' s.data).filter (fun l => !l.isEmpty), '.' ∉ l := by
      intro l hl
      exact not_mem_of_mem_splitSep '.' s.data l (List.mem_of_mem_filter hl)
    have hsplit := splitSep_joinSep '.' _ hmem hf
    have hidem : ((splitSep '.' s.data).filter (fun l => !l.isEmpty)).filter
        (fun l => !l.isEmpty) = (splitSep '.' s.data).filter (fun l => !l.isEmpty) :=
      List.filter_eq_self.mpr (fun a ha => (List.mem_filter.mp ha).2)
    simp only [into_name, hdata, hsplit, hidem]

theorem insertLinesGo_ok (lines : List (List Char)) :
    ∀ (m : Dmatcher T) (v : T),
    (∀ l ∈ lines, ∃ ls, into_name (String.mk l) = .ok ls) →
    insertLinesGo v m lines = (insertFold m lines v, none) := by
  induction lines with
  | nil => intro m v _; rfl
  | cons l rest ih =>
    intro m v h
    obtain ⟨ls, hls⟩ := h l (by simp)
    have hrest : ∀ l2 ∈ rest, ∃ ls2, into_name (String.mk l2) = .ok ls2 :=
      fun l2 hl2 => h l2 (List.mem_cons_of_mem _ hl2)
    simp only [insertLinesGo, insertFold, List.foldl_cons, insert_ok hls]
    exact ih _ v hrest

theorem insertLinesGo_abort (xs : List (List Char)) :
    ∀ (m : Dmatcher T) (v : T) (bad : List Char) (ys : List (List Char)) (e : DomainError),
    (∀ l ∈ xs, ∃ ls, into_name (String.mk l) = .ok ls) →
    into_name (String.mk bad) = .error e →
    insertLinesGo v m (xs ++ bad :: ys) = (insertFold m xs v, some e) := by
  induction xs with
  | nil =>
    intro m v bad ys e _ hbad
    simp only [List.nil_append, insertLinesGo, insert_err hbad]
    rfl
  | cons l xs ih =>
    intro m v bad ys e h hbad
    obtain ⟨ls, hls⟩ := h l (by simp)
    simp only [List.cons_append, insertLinesGo, insertFold, List.foldl_cons, insert_ok hls]
    exact ih _ v bad ys e (fun l2 hl2 => h l2 (List.mem_cons_of_mem _ hl2)) hbad

/-- Claim C1, counterexample: the suffix law fails as stated.  The rule
`apple.com` is successfully inserted (payload 1) and `store.apple.com` is a
strict subdomain of it, yet after the later insertion of the rule
`x.store.apple.com` the query `store.apple.com` reaches the routing-only
node `store` with all labels consumed and returns no match. -/
theorem c1_counterexample :
    ("apple.com", (1 : Nat)) ∈ [("apple.com", (1 : Nat)), ("x.store.apple.com", 2)] ∧
    into_name ("apple.com") = .ok [['a','p','p','l','e'], ['c','o','m']] ∧
    into_name ("store.apple.com") =
      .ok ([['s','t','o','r','e']] ++ [['a','p','p','l','e'], ['c','o','m']]) ∧
    (buildList [("apple.com", (1 : Nat)), ("x.store.apple.com", 2)]).matches
      ("store.apple.com") = .ok none :=
  ⟨by simp, rfl, rfl, rfl⟩

/-- Claim C1 (amended): for every rule R successfully inserted, a query of
any domain with the same labels as R reports a match; a query of a strict
subdomain of R reports a match provided no inserted rule strictly extends R
(no rule has R as a proper suffix).  Both cases hold regardless of the other
rules inserted before the query. -/
theorem c1_suffix_law_amended (rules : List (String × T)) (R D : String) (v : T)
    (rs ds : List Label)
    (hmem : (R, v) ∈ rules) (hR : into_name R = .ok rs)
    (hD : into_name D = .ok (ds ++ rs))
    (hcond : ds = [] ∨ ∀ Q w, (Q, w) ∈ rules → ∀ qs, into_name Q = .ok qs →
      rs.reverse <+: qs.reverse → qs = rs) :
    ∃ w, (buildList rules).matches D = .ok (some w) := by
  obtain ⟨n, hfp, hds⟩ := someAt_buildList_of_mem hmem hR
  have hvalid : validLabels rs.reverse := fun l hl =>
    into_name_ok_valid hR l (List.mem_reverse.mp hl)
  obtain ⟨w, hw⟩ := Option.isSome_iff_exists.mp hds
  have hmatches : (buildList rules).matches D =
      matchesLabels (buildList rules).root (ds ++ rs).reverse := by
    simp [Dmatcher.matches, hD]
  rw [hmatches, List.reverse_append,
    matchesLabels_of_findPath rs.reverse (buildList rules).root n hvalid hfp ds.reverse]
  rcases hcond with hc | hc
  · subst hc
    exact ⟨w, by simp [matchesLabels, hw]⟩
  · have hnochild : n.next_lvs = [] := by
      cases hch : n.next_lvs with
      | nil => rfl
      | cons e etl =>
        exfalso
        have hgot : childAt (buildList rules).root rs.reverse e.1 ≠ none := by
          obtain ⟨a0, c0⟩ := e
          simp [childAt, hfp, hch, assocGet]
        obtain ⟨r2, hr2, qs, hqs, hpre⟩ := childAt_buildList hgot
        have hpre2 : rs.reverse <+: qs.reverse := by
          obtain ⟨t, ht⟩ := hpre
          refine ⟨e.1 :: t, ?_⟩
          rw [List.append_assoc] at ht
          simpa using ht
        have hqrs : qs = rs := hc r2.1 r2.2 (by simpa using hr2) qs hqs hpre2
        subst hqrs
        have hlen := hpre.length_le
        simp at hlen
    rw [matchesLabels_childless hnochild]
    exact ⟨w, by rw [hw]⟩

/-- Claim C1 (amended), witness at a concrete input: with the single rule
`apple.com` (payload 1), the strict subdomain `store.apple.com` matches. -/
theorem c1_witness :
    (("apple.com", (1 : Nat)) ∈ [("apple.com", (1 : Nat))]) ∧
    into_name ("apple.com") = .ok [['a','p','p','l','e'], ['c','o','m']] ∧
    into_name ("store.apple.com") =
      .ok ([['s','t','o','r','e']] ++ [['a','p','p','l','e'], ['c','o','m']]) ∧
    (∃ w, (buildList [("apple.com", (1 : Nat))]).matches ("store.apple.com") =
      .ok (some w)) := by
  refine ⟨by simp, rfl, rfl, ?_⟩
  refine c1_suffix_law_amended [("apple.com", (1 : Nat))] ("apple.com") ("store.apple.com")
    1 [['a','p','p','l','e'], ['c','o','m']] [['s','t','o','r','e']] (by simp) rfl rfl
    (Or.inr ?_)
  intro Q w hmem qs hqs hpre
  simp only [List.mem_singleton, Prod.mk.injEq] at hmem
  obtain ⟨hQ, hw⟩ := hmem
  subst hQ
  have h2 : into_name ("apple.com") = .ok [['a','p','p','l','e'], ['c','o','m']] := rfl
  rw [h2] at hqs
  exact (Except.ok.inj hqs).symm

/-- Claim C3, counterexample: on the trie into which nothing was ever
inserted, the walk of the validly parsed query `a` stops at the childless
root before its labels are exhausted, yet the query is NOT declared a match
(it returns `none`), refuting the claim for every trie. -/
theorem c3_counterexample :
    (Dmatcher.new : Dmatcher Nat).root.next_lvs = [] ∧
    into_name ("a") = .ok [['a']] ∧
    (Dmatcher.new : Dmatcher Nat).matches ("a") = .ok none :=
  ⟨rfl, rfl, rfl⟩

/-- Claim C3 (amended): on every trie built by at least one successful
insertion, whenever the walk reaches a childless node with labels still
remaining, it stops early and declares a match: the node carries a payload
and the whole query returns it, independently of the remaining labels. -/
theorem c3_amended (rules : List (String × T)) (p0 : List Label) (a : Label)
    (p2 : List Label) (n : LevelNode T)
    (hne : rules ≠ []) (hok : ∀ r ∈ rules, ∃ ls, into_name r.1 = .ok ls)
    (hvalid : validLabels (p0 ++ a :: p2))
    (hfp : findPath (buildList rules).root p0 = some n)
    (hch : n.next_lvs = []) :
    ∃ w, n.dst = some w ∧
      matchesLabels (buildList rules).root (p0 ++ a :: p2) = .ok (some w) := by
  have hleaf : LeafSome (buildList rules).root := leafSome_buildList hne hok
  have hln : LeafSome n := leafSome_findPath p0 _ n hleaf hfp
  have hsome := leafSome_dst hln hch
  obtain ⟨w, hw⟩ := Option.isSome_iff_exists.mp hsome
  have hvp0 : validLabels p0 := fun l hl => hvalid l (List.mem_append_left _ hl)
  rw [matchesLabels_of_findPath p0 _ n hvp0 hfp (a :: p2), matchesLabels_childless hch]
  exact ⟨w, hw, by rw [hw]⟩

/-- Claim C3 (amended), witness: with the single rule `apple.com`, the walk
of `store.apple.com` reaches the childless `apple` node and declares a match
with payload 1. -/
theorem c3_witness :
    ([("apple.com", (1 : Nat))] ≠ ([] : List (String × Nat))) ∧
    findPath (buildList [("apple.com", (1 : Nat))]).root
      [['c','o','m'], ['a','p','p','l','e']] = some (LevelNode.mk (some 1) []) ∧
    (LevelNode.mk (some (1 : Nat)) []).next_lvs = [] ∧
    (∃ w, (LevelNode.mk (some (1 : Nat)) []).dst = some w ∧
      matchesLabels (buildList [("apple.com", (1 : Nat))]).root
        ([['c','o','m'], ['a','p','p','l','e']] ++ ['s','t','o','r','e'] :: []) =
        .ok (some w)) := by
  refine ⟨by simp, rfl, rfl, ?_⟩
  refine c3_amended [("apple.com", (1 : Nat))] [['c','o','m'], ['a','p','p','l','e']]
    (['s','t','o','r','e']) [] (LevelNode.mk (some 1) []) (by simp) ?_ (by decide) rfl rfl
  intro r hr
  simp only [List.mem_singleton] at hr
  subst hr
  exact ⟨[['a','p','p','l','e'], ['c','o','m']], rfl⟩

/-- Claim C4: when the walk consumes all query labels without breaking
early (the full reversed-label path exists in the trie), the query returns
exactly the payload stored at the last node reached — which may be `none`
at a routing-only node. -/
theorem c4_full_walk (m : Dmatcher T) (D : String) (ls : List Label) (n : LevelNode T)
    (hD : into_name D = .ok ls) (hfp : findPath m.root ls.reverse = some n) :
    m.matches D = .ok n.dst := by
  have hvalid : validLabels ls.reverse := fun l hl =>
    into_name_ok_valid hD l (List.mem_reverse.mp hl)
  have h1 : m.matches D = matchesLabels m.root ls.reverse := by
    simp [Dmatcher.matches, hD]
  have h2 := matchesLabels_of_findPath ls.reverse m.root n hvalid hfp []
  rw [List.append_nil] at h2
  rw [h1, h2]
  rfl

/-- Claim C4, witness: after inserting only `store.apple.com`, the query
`apple.com` consumes all its labels, ends on the routing-only `apple` node
and returns `none`. -/
theorem c4_witness :
    into_name ("apple.com") = .ok [['a','p','p','l','e'], ['c','o','m']] ∧
    findPath (buildList [("store.apple.com", (1 : Nat))]).root
        [['a','p','p','l','e'], ['c','o','m']].reverse =
      some (LevelNode.mk none [(['s','t','o','r','e'], LevelNode.mk (some 1) [])]) ∧
    (buildList [("store.apple.com", (1 : Nat))]).matches ("apple.com") = .ok none := by
  refine ⟨rfl, rfl, ?_⟩
  exact c4_full_walk (buildList [("store.apple.com", (1 : Nat))]) ("apple.com")
    [['a','p','p','l','e'], ['c','o','m']]
    (LevelNode.mk none [(['s','t','o','r','e'], LevelNode.mk (some 1) [])]) rfl rfl

/-- Claim C5, counterexample: bulk insertion does NOT skip empty lines.
Splitting the empty input on the newline character yields one empty line;
the implementation inserts it (the empty domain), which sets the root
payload so that everything matches afterwards, while the claimed behaviour
(insert once per non-empty line) would leave the matcher empty. -/
theorem c5_counterexample :
    ((Dmatcher.new : Dmatcher Nat).insert_lines ("") 1).2 = none ∧
    ((Dmatcher.new : Dmatcher Nat).insert_lines ("") 1).1.matches ("x") = .ok (some 1) ∧
    (insert_lines_claimed (Dmatcher.new : Dmatcher Nat) ("") 1).1.matches ("x") = .ok none :=
  ⟨rfl, rfl, rfl⟩

/-- Claim C5 (amended): bulk insertion splits its input on the newline
character and calls insert once per line — empty lines included — in
order; when every line inserts successfully it is the plain left fold of
insertion and reports no error, and when a line fails to parse it aborts
there, surfacing that error and performing no further insertions after the
failing line. -/
theorem c5_amended (m : Dmatcher T) (s : String) (v : T) :
    ((∀ l ∈ splitSep '\n' s.data, ∃ ls, into_name (String.mk l) = .ok ls) →
      m.insert_lines s v = (insertFold m (splitSep '\n' s.data) v, none)) ∧
    (∀ xs bad ys e, splitSep '\n' s.data = xs ++ bad :: ys →
      (∀ l ∈ xs, ∃ ls, into_name (String.mk l) = .ok ls) →
      into_name (String.mk bad) = .error e →
      m.insert_lines s v = (insertFold m xs v, some e)) := by
  constructor
  · intro h
    unfold Dmatcher.insert_lines
    exact insertLinesGo_ok _ m v h
  · intro xs bad ys e hsplit h hbad
    unfold Dmatcher.insert_lines
    rw [hsplit]
    exact insertLinesGo_abort xs m v bad ys e h hbad

/-- Claim C5 (amended), witness: a three-line input whose middle line is a
64-byte label aborts after inserting the first line; the error surfaces and
the third line is never inserted. -/
theorem c5_witness :
    splitSep '\n' (String.mk ("apple.com".data ++ '\n' :: List.replicate 64 'a' ++
        '\n' :: "b.com".data)).data =
      ["apple.com".data] ++ List.replicate 64 'a' :: ["b.com".data] ∧
    into_name (String.mk (List.replicate 64 'a')) = .error .malformedDomain ∧
    (Dmatcher.new : Dmatcher Nat).insert_lines
        (String.mk ("apple.com".data ++ '\n' :: List.replicate 64 'a' ++
          '\n' :: "b.com".data)) 1 =
      (insertFold (Dmatcher.new : Dmatcher Nat) ["apple.com".data] 1,
        some .malformedDomain) := by
  refine ⟨by decide, rfl, ?_⟩
  refine (c5_amended (Dmatcher.new : Dmatcher Nat)
    (String.mk ("apple.com".data ++ '\n' :: List.replicate 64 'a' ++
      '\n' :: "b.com".data)) 1).2
    ["apple.com".data] (List.replicate 64 'a') ["b.com".data] .malformedDomain
    (by decide) ?_ rfl
  intro l hl
  simp only [List.mem_singleton] at hl
  subst hl
  exact ⟨[['a','p','p','l','e'], ['c','o','m']], rfl⟩

/-- Claim C6: the negative law.  If no successfully inserted rule is a
suffix of the (validly parsed) domain D — its reversed labels are a prefix
of D's reversed labels — then the query of D reports no match. -/
theorem c6_negative_law (rules : List (String × T)) (D : String) (ls : List Label)
    (hD : into_name D = .ok ls)
    (hno : ∀ r ∈ rules, ∀ qs, into_name r.1 = .ok qs → ¬ qs.reverse <+: ls.reverse) :
    (buildList rules).matches D = .ok none := by
  have hvalid : validLabels ls.reverse := fun l hl =>
    into_name_ok_valid hD l (List.mem_reverse.mp hl)
  have h1 : (buildList rules).matches D = matchesLabels (buildList rules).root ls.reverse := by
    simp [Dmatcher.matches, hD]
  rw [h1]
  apply matchesLabels_none ls.reverse [] (buildList rules).root (buildList rules).root hvalid
    rfl
  intro q hq hsome
  rw [List.nil_append] at hsome
  obtain ⟨r, hr, qs, hqs, hpq⟩ := someAt_buildList hsome
  subst hpq
  exact hno r hr qs hqs hq

/-- Claim C6, witness: with the single rule `apple.com` (not a suffix of
`apple.cn`), the query `apple.cn` reports no match. -/
theorem c6_witness :
    into_name ("apple.cn") = .ok [['a','p','p','l','e'], ['c','n']] ∧
    (buildList [("apple.com", (1 : Nat))]).matches ("apple.cn") = .ok none := by
  refine ⟨rfl, ?_⟩
  refine c6_negative_law [("apple.com", (1 : Nat))] ("apple.cn")
    [['a','p','p','l','e'], ['c','n']] rfl ?_
  intro r hr qs hqs
  simp only [List.mem_singleton] at hr
  subst hr
  have h2 : into_name ("apple.com") = .ok [['a','p','p','l','e'], ['c','o','m']] := rfl
  rw [h2] at hqs
  obtain rfl := (Except.ok.inj hqs).symm
  rintro ⟨t, ht⟩
  simp at ht

/-- Claim C7: inserting the same rule domain twice yields exactly the same
trie as inserting it once (no duplicate branching, hence the same query
results for every query domain), and the payload stored at the rule's
terminal node is the payload of the second insertion (last write wins). -/
theorem c7_idempotent_last_write (m : Dmatcher T) (R : String) (v1 v2 : T) :
    (((m.insert R v1).1).insert R v2).1 = (m.insert R v2).1 ∧
    (∀ rs, into_name R = .ok rs →
      ∃ n, findPath ((((m.insert R v1).1).insert R v2).1).root rs.reverse = some n ∧
        n.dst = some v2) := by
  constructor
  · cases hin : into_name R with
    | error e => simp [insert_err hin]
    | ok ls =>
      simp only [insert_ok hin]
      simp [insOk_insOk]
  · intro rs hin
    simp only [insert_ok hin]
    obtain ⟨n, hn, hd⟩ := findPath_insOk (insOk m.root rs.reverse v1) rs.reverse v2
    exact ⟨n, by rw [insOk_insOk] at hn ⊢; exact hn, hd⟩

/-- Claim C7, witness: inserting `apple.com` with payload 1 and then with
payload 2 equals inserting it once with payload 2, and the terminal node
carries payload 2. -/
theorem c7_witness :
    ((((Dmatcher.new : Dmatcher Nat).insert ("apple.com") 1).1.insert ("apple.com") 2).1 =
      ((Dmatcher.new : Dmatcher Nat).insert ("apple.com") 2).1) ∧
    into_name ("apple.com") = .ok [['a','p','p','l','e'], ['c','o','m']] ∧
    (∃ n, findPath ((((Dmatcher.new : Dmatcher Nat).insert ("apple.com") 1).1.insert
          ("apple.com") 2).1).root [['a','p','p','l','e'], ['c','o','m']].reverse =
        some n ∧ n.dst = some 2) := by
  refine ⟨(c7_idempotent_last_write (Dmatcher.new : Dmatcher Nat) ("apple.com") 1 2).1,
    rfl, ?_⟩
  exact (c7_idempotent_last_write (Dmatcher.new : Dmatcher Nat) ("apple.com") 1 2).2
    [['a','p','p','l','e'], ['c','o','m']] rfl

/-- Claim C8: when the input domain cannot be decomposed into valid labels,
insert fails by returning the `MalformedDomain` error to the immediate
caller (and leaves the matcher unchanged) rather than silently ignoring the
input. -/
theorem c8_malformed_error (m : Dmatcher T) (R : String) (v : T)
    (h : ∀ ls, into_name R ≠ .ok ls) :
    m.insert R v = (m, some .malformedDomain) := by
  cases hin : into_name R with
  | ok ls => exact absurd hin (h ls)
  | error e =>
    cases e
    exact insert_err hin

/-- Claim C8, witness: a domain consisting of a single 64-byte label cannot
be decomposed into valid labels, and its insertion returns the
`MalformedDomain` error with the matcher unchanged. -/
theorem c8_witness :
    into_name (String.mk (List.replicate 64 'a')) = .error .malformedDomain ∧
    (Dmatcher.new : Dmatcher Nat).insert (String.mk (List.replicate 64 'a')) 1 =
      ((Dmatcher.new : Dmatcher Nat), some .malformedDomain) := by
  refine ⟨rfl, ?_⟩
  refine c8_malformed_error (Dmatcher.new : Dmatcher Nat)
    (String.mk (List.replicate 64 'a')) 1 ?_
  intro ls h2
  have h3 : into_name (String.mk (List.replicate 64 'a')) = .error .malformedDomain := rfl
  rw [h3] at h2
  exact Except.noConfusion h2

/-- Claim C9: the leaf-payload invariant.  In every trie built from the
empty matcher by a non-empty sequence of successful insertions of non-empty
domains, every childless node carries a payload (the root of a trie into
which nothing was inserted being the sole exception, excluded by the
non-emptiness hypothesis). -/
theorem c9_leaf_payload_invariant (rules : List (String × T))
    (hne : rules ≠ [])
    (hok : ∀ r ∈ rules, ∃ ls, into_name r.1 = .ok ls ∧ ls ≠ []) :
    LeafSome (buildList rules).root :=
  leafSome_buildList hne (fun r hr => ((hok r hr).elim (fun ls h2 => ⟨ls, h2.1⟩)))

/-- Claim C9, witness: the trie of the rules `apple.com` and `apple.cn`
satisfies the leaf-payload invariant. -/
theorem c9_witness :
    ([("apple.com", (1 : Nat)), ("apple.cn", 2)] ≠ ([] : List (String × Nat))) ∧
    LeafSome (buildList [("apple.com", (1 : Nat)), ("apple.cn", 2)]).root := by
  refine ⟨by simp, ?_⟩
  refine c9_leaf_payload_invariant [("apple.com", (1 : Nat)), ("apple.cn", 2)] (by simp) ?_
  intro r hr
  rcases List.mem_cons.mp hr with h | h
  · subst h
    exact ⟨[['a','p','p','l','e'], ['c','o','m']], rfl, by simp⟩
  · rcases List.mem_cons.mp h with h2 | h2
    · subst h2
      exact ⟨[['a','p','p','l','e'], ['c','n']], rfl, by simp⟩
    · simp at h2

/-- Claim C10: insert is atomic on error.  If insert returns an error the
matcher is left exactly unchanged, because domain parsing happens before
any mutation and the per-label re-parse during the walk never fails on
labels drawn from an already-validated name (second conjunct). -/
theorem c10_insert_atomic (m : Dmatcher T) (R : String) (v : T) :
    ((m.insert R v).2.isSome = true → (m.insert R v).1 = m) ∧
    (∀ p : List Label, validLabels p → (insertLabelsMut m.root p v).2 = none) := by
  constructor
  · intro h
    cases hin : into_name R with
    | error e => rw [insert_err hin]
    | ok ls =>
      rw [insert_ok hin] at h
      simp at h
  · intro p hp
    rw [insertLabelsMut_eq hp]

/-- Claim C10, witness: inserting a 64-byte label into the matcher already
holding `apple.com` fails and leaves the matcher exactly unchanged. -/
theorem c10_witness :
    ((((Dmatcher.new : Dmatcher Nat).insert ("apple.com") 1).1).insert
        (String.mk (List.replicate 64 'a')) 2).2.isSome = true ∧
    ((((Dmatcher.new : Dmatcher Nat).insert ("apple.com") 1).1).insert
        (String.mk (List.replicate 64 'a')) 2).1 =
      ((Dmatcher.new : Dmatcher Nat).insert ("apple.com") 1).1 ∧
    (insertLabelsMut (((Dmatcher.new : Dmatcher Nat).insert ("apple.com") 1).1).root
        [['c','o','m'], ['a','p','p','l','e']] 2).2 = none := by
  refine ⟨rfl, ?_, ?_⟩
  · exact (c10_insert_atomic (((Dmatcher.new : Dmatcher Nat).insert ("apple.com") 1).1)
      (String.mk (List.replicate 64 'a')) 2).1 rfl
  · exact (c10_insert_atomic (((Dmatcher.new : Dmatcher Nat).insert ("apple.com") 1).1)
      (String.mk (List.replicate 64 'a')) 2).2 [['c','o','m'], ['a','p','p','l','e']]
      (by decide)

/-- Claim C2: empty-label tolerance.  Insert and matches on any domain
behave identically to the same domain with its empty labels (from leading,
trailing or consecutive dots) stripped — in particular an empty label in a
query is skipped, not treated as a mismatch — and no trie built by any
sequence of insertions ever carries an empty label as an edge. -/
theorem c2_empty_label_tolerance (m : Dmatcher T) (s : String) (v : T) :
    (m.insert s v = m.insert (stripEmpty s) v ∧
      m.matches s = m.matches (stripEmpty s)) ∧
    (∀ rules : List (String × T), EdgesNonempty (buildList rules).root) := by
  refine ⟨⟨?_, ?_⟩, fun rules => edgesNonempty_buildList rules⟩
  · unfold Dmatcher.insert
    rw [into_name_stripEmpty]
  · unfold Dmatcher.matches
    rw [into_name_stripEmpty]

example : stripEmpty (".apple..com.") = ("apple.com") := rfl

example :
    ((Dmatcher.new : Dmatcher Nat).insert (".apple..com.") 1).1.matches ("www..apple.com.") =
      .ok (some 1) := rfl
